import Mathlib

/-!
Verification of the durability and indexing pipeline of the chroma
repository: the ordered per-topic event log (the queue), the producer
validation and synchronous fan-out, the subscription catch-up/live
protocol, the segment manager resume rules, and two test helpers from
chromadb/test/conftest.py.

The core pipeline code (LogStore, Producer, Consumer, SegmentManager,
Collection.update validation) is not present under src/ in this snapshot;
only its tests, fixtures and a proto stub are.  Those components are
therefore modelled from the specification, faithfully to its words, as a
per-topic state machine: appends to one topic are serialized, so a run is
a sequence of atomic operations, and racing appends are represented by
arbitrary interleavings of operations around a subscribe step.  The two
functions produce_n_single and produce_n_batch are translated directly
from src/chromadb/test/conftest.py.
-/

namespace Chroma

/-- Modelled from the spec: SeqId is an opaque, strictly increasing,
totally ordered identifier within a topic (encoded as a 64-bit unsigned
monotonic counter); modelled as Nat. -/
abbrev SeqId := Nat

/-- Modelled from the spec: the four mutation operations of an
OperationRecord. -/
inductive Operation where
  | add
  | update
  | upsert
  | delete
deriving DecidableEq

/-- Modelled from the spec: a float32 vector component, keeping only the
structure the pipeline inspects, namely whether the value is finite or a
non-finite IEEE value (NaN or an infinity). -/
inductive FVal where
  | num (q : Int)
  | nan
  | posInf
  | negInf
deriving DecidableEq

/-- Modelled from the spec: a float value is finite when it is an ordinary
number, not NaN nor an infinity. -/
def FVal.isFinite : FVal → Bool
  | .num _ => true
  | .nan => false
  | .posInf => false
  | .negInf => false

/-- Modelled from the spec: scalar metadata values (string, number or
boolean). -/
inductive MetaVal where
  | str (s : String)
  | int (n : Int)
  | boolean (b : Bool)
deriving DecidableEq

/-- Modelled from the spec: an OperationRecord has an id, an operation, an
optional fixed-dimension vector and an optional string-keyed mapping of
scalar values (represented as an association list in submission order). -/
structure OperationRecord where
  id : String
  operation : Operation
  embedding : Option (List FVal)
  metadata : Option (List (String × MetaVal))
deriving DecidableEq

/-- Modelled from the spec: a log entry {seq_id, record, enqueued_at},
immutable once appended.  The model is per-topic, so the topic component
is implicit in the state holding the entry. -/
structure LogEntry where
  seq_id : Nat
  record : OperationRecord
  enqueued_at : Nat
deriving DecidableEq

/-! ## Segment apply (the apply/checkpoint contract), for claim C5 -/

/-- Modelled from the spec: the materialized data kept per id by a
segment: the embedding and the accumulated metadata mapping. -/
structure SegRec where
  embedding : Option (List FVal)
  metadata : String → Option MetaVal

/-- Modelled from the spec: a segment state is a materialized view mapping
each record id to its current materialization, absent when deleted or
never added. -/
def SegState := String → Option SegRec

/-- Modelled from the spec: point update of a metadata mapping. -/
def setMeta (m : String → Option MetaVal) (k : String) (v : MetaVal) :
    String → Option MetaVal :=
  fun k' => if k' = k then some v else m k'

/-- Modelled from the spec: apply a list of metadata key/value pairs to a
metadata mapping, in list order. -/
def applyMeta : List (String × MetaVal) → (String → Option MetaVal) →
    (String → Option MetaVal)
  | [], m => m
  | (k, v) :: rest, m => applyMeta rest (setMeta m k v)

/-- Last value assigned to a key by a list of metadata pairs, if any. -/
def lastVal : List (String × MetaVal) → String → Option MetaVal
  | [], _ => none
  | (k, v) :: rest, k' =>
    match lastVal rest k' with
    | some w => some w
    | none => if k' = k then some v else none

/-- Modelled from the spec: the fresh materialization produced by an
ADD/UPSERT record: its embedding, and its metadata applied to an empty
mapping. -/
def recOf (r : OperationRecord) : SegRec :=
  ⟨r.embedding, applyMeta (r.metadata.getD []) (fun _ => none)⟩

/-- Point update of a segment state. -/
def setSeg (s : SegState) (k : String) (v : SegRec) : SegState :=
  fun k' => if k' = k then some v else s k'

/-- Point removal from a segment state. -/
def eraseSeg (s : SegState) (k : String) : SegState :=
  fun k' => if k' = k then none else s k'

/-- Modelled from the spec: the apply step of the segment apply/checkpoint
contract.  ADD inserts when the id is absent and is otherwise ignored;
UPSERT overwrites; UPDATE carries only changed fields, unset fields
preserved downstream, and is ignored for an absent id; DELETE removes the
id. -/
def applySeg (s : SegState) (r : OperationRecord) : SegState :=
  match r.operation with
  | .add =>
    match s r.id with
    | some _ => s
    | none => setSeg s r.id (recOf r)
  | .upsert => setSeg s r.id (recOf r)
  | .update =>
    match s r.id with
    | none => s
    | some old =>
      setSeg s r.id
        ⟨match r.embedding with
          | some e => some e
          | none => old.embedding,
         applyMeta (r.metadata.getD []) old.metadata⟩
  | .delete => eraseSeg s r.id

/-! ## The per-topic log store, producer and subscription protocol -/

/-- Modelled from the spec: the durable, ordered, replayable state of one
topic of the LogStore: the committed entries in append order, and the next
sequence number to assign.  nextSeq may run ahead of the entries after
truncation, so it is kept explicitly. -/
structure LogState where
  entries : List LogEntry
  nextSeq : Nat
deriving DecidableEq

/-- Modelled from the spec: producer-side configuration: the collection
configured embedding dimension. -/
structure Cfg where
  dim : Nat
deriving DecidableEq

/-- Modelled from the spec: the validation failures surfaced by the
producer. -/
inductive ValErr where
  | emptyId
  | dimensionMismatch
  | invalidVector
deriving DecidableEq

/-- Modelled from the spec: the failure surface of the queue: validation
failures, and StoreError for an I/O or durability failure during append. -/
inductive QErr where
  | validation (e : ValErr)
  | store
deriving DecidableEq

/-- Modelled from the spec: per-record validation: the id must be
non-empty; an ADD/UPSERT embedding must match the configured dimension,
else DimensionMismatchError; embedding values must be finite, else
InvalidVectorError. -/
def validateRecord (cfg : Cfg) (r : OperationRecord) : Option ValErr :=
  if r.id = "" then some .emptyId
  else
    match r.embedding with
    | none => none
    | some v =>
      if (r.operation = .add ∨ r.operation = .upsert) ∧ v.length ≠ cfg.dim then
        some .dimensionMismatch
      else if ∃ x ∈ v, x.isFinite = false then some .invalidVector
      else none

/-- First validation failure in a batch, if any. -/
def firstErr (cfg : Cfg) : List OperationRecord → Option ValErr
  | [] => none
  | r :: rs =>
    match validateRecord cfg r with
    | some e => some e
    | none => firstErr cfg rs

/-- Modelled from the spec: the entries created for a batch, receiving
contiguous, strictly increasing sequence numbers in call order starting at
the given counter, stamped with the enqueue time. -/
def mkEntries : List OperationRecord → Nat → Nat → List LogEntry
  | [], _, _ => []
  | r :: rs, start, now => ⟨start, r, now⟩ :: mkEntries rs (start + 1) now

/-- Modelled from the spec: LogStore.append for one topic: atomic, all
records receive contiguous strictly increasing sequence numbers in call
order and the whole batch is committed in one step; when the backing
medium is unavailable (the ok flag is false) it fails with StoreError and
commits nothing. -/
def LogState.append (st : LogState) (recs : List OperationRecord)
    (now : Nat) (ok : Bool) : Except QErr (LogState × List LogEntry) :=
  if ok then
    let ne := mkEntries recs st.nextSeq now
    Except.ok ({ entries := st.entries ++ ne, nextSeq := st.nextSeq + recs.length }, ne)
  else Except.error QErr.store

/-- Modelled from the spec: LogStore.read_range for one topic: the
committed entries with sequence id at least the inclusive lower bound, up
to the given limit. -/
def LogState.read_range (st : LogState) (fromSeq : Nat) (limit : Nat) :
    List LogEntry :=
  (st.entries.filter (fun e => decide (fromSeq ≤ e.seq_id))).take limit

/-- Modelled from the spec: the sequence id of the last entry of a list,
if any. -/
def lastSeq : List LogEntry → Option Nat
  | [] => none
  | e :: t =>
    match lastSeq t with
    | some x => some x
    | none => some e.seq_id

/-- Modelled from the spec: LogStore.max_seq_id for one topic. -/
def LogState.max_seq_id (st : LogState) : Option Nat := lastSeq st.entries

/-- Modelled from the spec: a live subscription: its handle id, the
callback outcome (whether applying the entry with a given sequence id
fails, raising SubscriptionDeliveryError), the entries its callback has
been invoked on in order, the persisted checkpoint (last successfully
applied sequence id), and whether delivery was halted by a failure. -/
structure Sub where
  sid : Nat
  failsOn : Nat → Bool
  received : List LogEntry
  checkpoint : Option Nat
  halted : Bool

/-- Modelled from the spec: delivery of one entry to one subscriber.  A
halted subscriber gets nothing further; otherwise the callback is invoked,
and on success the checkpoint advances to the entry, while on failure the
entry is not considered delivered, the checkpoint does not advance, and
the subscription halts until restarted. -/
def deliverEntry (e : LogEntry) (t : Sub) : Sub :=
  if t.halted then t
  else if t.failsOn e.seq_id then
    { t with received := t.received ++ [e], halted := true }
  else
    { t with received := t.received ++ [e], checkpoint := some e.seq_id }

/-- Delivery of a list of entries, in order, to one subscriber. -/
def deliverBatch (es : List LogEntry) (t : Sub) : Sub :=
  es.foldl (fun t e => deliverEntry e t) t

/-- Modelled from the spec: whether an entry sequence id is after the
start_after position (genesis is none and admits everything). -/
def afterB (startAfter : Option Nat) (n : Nat) : Bool :=
  match startAfter with
  | none => true
  | some c => decide (c < n)

/-- Modelled from the spec: the catch-up read of a subscription: the
historical entries strictly after the start_after position, in order. -/
def catchup (startAfter : Option Nat) (l : List LogEntry) : List LogEntry :=
  l.filter (fun e => afterB startAfter e.seq_id)

/-- Modelled from the spec: subscription construction: the catch-up
entries are delivered synchronously to the fresh subscriber, whose initial
checkpoint is the start_after position; taken as one step relative to
append serialization. -/
def mkSub (sid : Nat) (startAfter : Option Nat) (g : Nat → Bool)
    (l : List LogEntry) : Sub :=
  deliverBatch (catchup startAfter l) ⟨sid, g, [], startAfter, false⟩

/-- Modelled from the spec: the whole per-topic queue state: the log and
the live subscriptions. -/
structure SysState where
  log : LogState
  subs : List Sub

/-- Modelled from the spec: Producer.submit_batch: validates each record
synchronously before append (on failure nothing is persisted and no SeqId
is assigned), then appends via the LogStore (surfacing StoreError with the
queue state unchanged), then synchronously delivers the newly appended
entries, in order, to every live subscriber before returning the assigned
sequence ids. -/
def submit_batch (cfg : Cfg) (recs : List OperationRecord) (now : Nat)
    (ok : Bool) (s : SysState) : SysState × Except QErr (List SeqId) :=
  match firstErr cfg recs with
  | some e => (s, .error (.validation e))
  | none =>
    match s.log.append recs now ok with
    | .error e => (s, .error e)
    | .ok (log', ne) =>
      ({ log := log', subs := s.subs.map (deliverBatch ne) }, .ok (ne.map (·.seq_id)))

/-- Modelled from the spec: the atomic operations of one topic of the
queue, whose interleavings model appends racing with subscribe calls:
a producer submission (ok is false when the backing medium fails), an
atomic subscribe, and an unsubscribe. -/
inductive Op where
  | submit (recs : List OperationRecord) (now : Nat) (ok : Bool)
  | subscribe (sid : Nat) (startAfter : Option Nat) (g : Nat → Bool)
  | unsubscribe (sid : Nat)

/-- Modelled from the spec: one serialized step of the topic.  A subscribe
with a duplicate handle id is rejected (SubscriptionError) and changes
nothing; unsubscribe removes the handle so no further callback invocations
happen. -/
def step (cfg : Cfg) (s : SysState) : Op → SysState
  | .submit recs now ok => (submit_batch cfg recs now ok s).1
  | .subscribe sid startAfter g =>
    if s.subs.any (fun t => t.sid == sid) then s
    else { s with subs := s.subs ++ [mkSub sid startAfter g s.log.entries] }
  | .unsubscribe sid => { s with subs := s.subs.filter (fun t => t.sid != sid) }

/-- A serialized run of operations on one topic. -/
def run (cfg : Cfg) (ops : List Op) (s : SysState) : SysState :=
  ops.foldl (step cfg) s

/-- Strict sequence order between entries. -/
def SeqLt (a b : LogEntry) : Prop := a.seq_id < b.seq_id

instance : DecidableRel SeqLt := fun a b => Nat.decLt a.seq_id b.seq_id

/-- The queue invariant of one topic: entry sequence ids are strictly
increasing in log order and below the next sequence number to assign. -/
def Inv (s : SysState) : Prop :=
  s.log.entries.Pairwise SeqLt ∧ ∀ e ∈ s.log.entries, e.seq_id < s.log.nextSeq

instance (s : SysState) : Decidable (Inv s) := by
  unfold Inv; infer_instance


/-- A callback that never fails. -/
def neverFails : Nat → Bool := fun _ => false

/-- The live subscription with a given handle id, if registered. -/
def findSub (sid : Nat) (s : SysState) : Option Sub :=
  s.subs.find? (fun u => u.sid == sid)

/-- A handle id not used by any live subscription. -/
def freshSub (sid : Nat) (s : SysState) : Bool :=
  s.subs.all (fun u => u.sid != sid)

/-- Operations that do not manage the given subscription handle;
interleavings of such operations model appends and other subscribers
racing with this handle between and after its subscribe call. -/
def avoids (sid : Nat) : Op → Bool
  | Op.subscribe sid2 _ _ => sid2 != sid
  | Op.unsubscribe sid2 => sid2 != sid
  | Op.submit _ _ _ => true


/-! ## Segment manager -/

/-- Modelled from the spec: the identity of a segment: the collection it
materializes and the segment type (vector or metadata index). -/
structure SegKey where
  collectionId : String
  segType : String
deriving DecidableEq

/-- Modelled from the spec: a subscribed segment instance handle,
recording the key and the subscription start position: startAfter is the
persisted checkpoint used at construction time, so the subscription
resumes at checkpoint + 1, and none means genesis (full rebuild). -/
structure SegHandle where
  key : SegKey
  startAfter : Option Nat
deriving DecidableEq

/-- Modelled from the spec: the SegmentManager state: the cache of live
subscribed instances it exclusively owns, and the persisted per-segment
checkpoints read at startup. -/
structure SegMgr where
  cache : List (SegKey × SegHandle)
  checkpoints : List (SegKey × Nat)
deriving DecidableEq

/-- Association lookup by segment key. -/
def alookup {β : Type} (l : List (SegKey × β)) (k : SegKey) : Option β :=
  (l.find? (fun q => q.1 == k)).map (·.2)

/-- Modelled from the spec: SegmentManager.get_segment: returns the cached
subscribed instance when one exists, and otherwise lazily constructs one
whose subscription starts at checkpoint + 1 if a persisted checkpoint
exists and at genesis if none does, caching it. -/
def SegMgr.get_segment (m : SegMgr) (k : SegKey) : SegMgr × SegHandle :=
  match alookup m.cache k with
  | some h => (m, h)
  | none =>
    ({ m with cache := m.cache ++ [(k, ⟨k, alookup m.checkpoints k⟩)] },
      ⟨k, alookup m.checkpoints k⟩)

/-- Modelled from the spec: startup recovery: for every known segment with
a persisted checkpoint, subscribe at checkpoint + 1; for segments with
none, subscribe from genesis. -/
def recoverAll (m : SegMgr) (known : List SegKey) : List SegHandle :=
  known.map (fun k2 => ⟨k2, alookup m.checkpoints k2⟩)

/-! ## The producer helpers of chromadb/test/conftest.py -/

/-- The producer interface consumed by the conftest helpers:
submit_embedding submits one record and returns its SeqId,
submit_embeddings submits a whole batch and returns one SeqId per record;
both thread an abstract producer state. -/
structure ProducerM (σ : Type) where
  submit_embedding : σ → OperationRecord → σ × SeqId
  submit_embeddings : σ → List OperationRecord → σ × List SeqId

/-- Draw exactly n items from a list-backed iterator, or none when the
iterator is exhausted early (a Python StopIteration). -/
def takeExact {α : Type} : List α → Nat → Option (List α)
  | _, 0 => some []
  | [], Nat.succ _ => none
  | x :: xs, Nat.succ n =>
    match takeExact xs n with
    | none => none
    | some ys => some (x :: ys)

/-- Translated from produce_n_single in src/chromadb/test/conftest.py:
draws n records from the iterator, submitting each one with
submit_embedding as it is drawn, and returns the submitted records and the
collected seq ids in draw order. -/
def produce_n_single {σ : Type} (p : ProducerM σ) :
    σ → List OperationRecord → Nat →
    Option (σ × List OperationRecord × List SeqId)
  | s, _, 0 => some (s, [], [])
  | _, [], Nat.succ _ => none
  | s, e :: rest, Nat.succ n =>
    match p.submit_embedding s e with
    | (s1, sid) =>
      match produce_n_single p s1 rest n with
      | none => none
      | some (s2, recs, sids) => some (s2, e :: recs, sid :: sids)

/-- Translated from produce_n_batch in src/chromadb/test/conftest.py:
draws n records from the iterator into a batch, submits the whole batch
once with submit_embeddings, and returns the batch together with the
returned seq ids. -/
def produce_n_batch {σ : Type} (p : ProducerM σ) (s : σ)
    (embeddings : List OperationRecord) (n : Nat) :
    Option (σ × List OperationRecord × List SeqId) :=
  match takeExact embeddings n with
  | none => none
  | some batch =>
    match p.submit_embeddings s batch with
    | (s1, sids) => some (s1, batch, sids)

/-! ## Collection.update validation -/

/-- Modelled from the spec: the data of one collection entry on the client
API surface: embedding, document and metadata. -/
structure ColRec where
  embedding : Option (List FVal)
  document : Option String
  metadata : Option (List (String × MetaVal))
deriving DecidableEq

/-- A collection on the client API surface, as an association list from
record id to its data. -/
abbrev CollectionState := List (String × ColRec)

/-- The validation message asserted by
src/chromadb/test/api/test_api_update.py. -/
def updErrMsg : String := "You must provide either data or metadatas"

/-- Merge the provided fields of an update into an existing entry,
preserving unset fields. -/
def updateRec (old : ColRec) (emb : Option (List FVal)) (doc : Option String)
    (md : Option (List (String × MetaVal))) : ColRec :=
  ⟨match emb with
    | some e => some e
    | none => old.embedding,
   match doc with
    | some d => some d
    | none => old.document,
   match md with
    | some w => some w
    | none => old.metadata⟩

/-- Update one id of the collection with its positionally corresponding
values, leaving absent ids unchanged. -/
def updateCol1 (c : CollectionState) (i : String) (emb : Option (List FVal))
    (doc : Option String) (md : Option (List (String × MetaVal))) :
    CollectionState :=
  c.map (fun kv => if kv.1 = i then (kv.1, updateRec kv.2 emb doc md) else kv)

/-- Modelled from the spec: Collection.update, whose validation is
asserted by src/chromadb/test/api/test_api_update.py: when embeddings,
documents and metadatas are all absent it raises ValueError with the
message updErrMsg and applies no update; otherwise it updates each listed
id with its positionally corresponding provided values. -/
def Collection.update (c : CollectionState) (ids : List String)
    (embeddings : Option (List (List FVal))) (documents : Option (List String))
    (metadatas : Option (List (List (String × MetaVal)))) :
    CollectionState × Option String :=
  match embeddings, documents, metadatas with
  | none, none, none => (c, some updErrMsg)
  | _, _, _ =>
    (ids.enum.foldl
      (fun acc ji =>
        updateCol1 acc ji.2 (embeddings.bind (fun xs => xs.get? ji.1))
          (documents.bind (fun xs => xs.get? ji.1))
          (metadatas.bind (fun xs => xs.get? ji.1)))
      c, none)

/-! ## Concrete example data -/

def exCfg : Cfg := ⟨1⟩

def exRec1 : OperationRecord := ⟨"a", Operation.add, some [FVal.num 1], none⟩

def exRec2 : OperationRecord := ⟨"b", Operation.add, some [FVal.num 2], none⟩

def exRec3 : OperationRecord := ⟨"c", Operation.upsert, some [FVal.num 3], none⟩

def exRec4 : OperationRecord := ⟨"d", Operation.delete, none, none⟩

def exRecBadDim : OperationRecord :=
  ⟨"x", Operation.add, some [FVal.num 1, FVal.num 2], none⟩

def exEntry0 : LogEntry := ⟨0, exRec1, 0⟩

def exLog : LogState := ⟨[exEntry0], 1⟩

def exSys : SysState := ⟨exLog, []⟩

def exPost : List Op := [Op.submit [exRec2] 5 true]

def exFailsOn2 : Nat → Bool := fun n => n == 2

def exSub : Sub := ⟨3, exFailsOn2, [exEntry0], some 0, false⟩

def exSysD : SysState := ⟨exLog, [exSub]⟩

def exA : List LogEntry := [⟨1, exRec2, 5⟩]

def exE : LogEntry := ⟨2, exRec3, 5⟩

def exB : List LogEntry := [⟨3, exRec4, 5⟩]

def exProd : ProducerM (List OperationRecord) :=
  ⟨fun s e => (s ++ [e], s.length),
   fun s rs => (s ++ rs, rs.map (fun _ => 0))⟩

/-! ## Theorems about the segment apply contract -/

theorem applyMeta_lookup (kvs : List (String × MetaVal))
    (m : String → Option MetaVal) (k' : String) :
    applyMeta kvs m k' =
      match lastVal kvs k' with
      | some w => some w
      | none => m k' := by
  induction kvs generalizing m with
  | nil => simp [applyMeta, lastVal]
  | cons kv rest ih =>
    obtain ⟨k, v⟩ := kv
    simp only [applyMeta, lastVal]
    rw [ih]
    cases h : lastVal rest k' with
    | some w => simp
    | none =>
      by_cases hk : k' = k <;> simp [setMeta, hk]

theorem applyMeta_idem (kvs : List (String × MetaVal))
    (m : String → Option MetaVal) :
    applyMeta kvs (applyMeta kvs m) = applyMeta kvs m := by
  funext k'
  rw [applyMeta_lookup, applyMeta_lookup]
  cases h : lastVal kvs k' with
  | some w => simp
  | none => simp [applyMeta_lookup, h]

theorem setSeg_same (s : SegState) (k : String) (v : SegRec) :
    setSeg s k v k = some v := by
  simp [setSeg]

theorem setSeg_idem (s : SegState) (k : String) (v : SegRec) :
    setSeg (setSeg s k v) k v = setSeg s k v := by
  funext k'
  by_cases h : k' = k <;> simp [setSeg, h]

/-! ## Helper lemmas about the queue model -/

theorem mkEntries_bounds (recs : List OperationRecord) (start now : Nat) :
    ∀ e ∈ mkEntries recs start now,
      start ≤ e.seq_id ∧ e.seq_id < start + recs.length := by
  induction recs generalizing start with
  | nil => simp [mkEntries]
  | cons r rs ih =>
    intro e he
    simp only [mkEntries, List.mem_cons] at he
    rcases he with rfl | he
    · simp
    · have := ih (start + 1) e he
      simp only [List.length_cons]
      omega

theorem mkEntries_sorted (recs : List OperationRecord) (start now : Nat) :
    (mkEntries recs start now).Pairwise SeqLt := by
  induction recs generalizing start with
  | nil => simp [mkEntries]
  | cons r rs ih =>
    simp only [mkEntries, List.pairwise_cons]
    refine ⟨fun e he => ?_, ih (start + 1)⟩
    have := mkEntries_bounds rs (start + 1) now e he
    show start < e.seq_id
    omega

theorem mkEntries_records (recs : List OperationRecord) (start now : Nat) :
    (mkEntries recs start now).map (·.record) = recs := by
  induction recs generalizing start with
  | nil => simp [mkEntries]
  | cons r rs ih => simp [mkEntries, ih]

theorem mkEntries_length (recs : List OperationRecord) (start now : Nat) :
    (mkEntries recs start now).length = recs.length := by
  induction recs generalizing start with
  | nil => simp [mkEntries]
  | cons r rs ih => simp [mkEntries, ih]

theorem mkEntries_seqs (recs : List OperationRecord) (start now : Nat) :
    (mkEntries recs start now).map (·.seq_id) = List.range' start recs.length := by
  induction recs generalizing start with
  | nil => simp [mkEntries]
  | cons r rs ih => simp [mkEntries, List.range'_succ, ih]

theorem lastSeq_append (x y : List LogEntry) :
    lastSeq (x ++ y) =
      match lastSeq y with
      | some v => some v
      | none => lastSeq x := by
  induction x with
  | nil =>
    simp only [List.nil_append]
    cases h : lastSeq y <;> simp [lastSeq, h]
  | cons e t ih =>
    rw [show lastSeq (e :: t ++ y) =
        (match lastSeq (t ++ y) with
          | some x => some x
          | none => some e.seq_id) from rfl]
    rw [ih]
    cases h : lastSeq y <;> cases h' : lastSeq t <;> simp [lastSeq, h']

theorem lastSeq_mem (l : List LogEntry) (v : Nat) (h : lastSeq l = some v) :
    ∃ e ∈ l, e.seq_id = v := by
  induction l with
  | nil => simp [lastSeq] at h
  | cons e t ih =>
    cases h' : lastSeq t with
    | some x =>
      have hx : x = v := by
        simp only [lastSeq, h'] at h
        exact Option.some.inj h
      obtain ⟨f, hf, hfv⟩ := ih (hx ▸ h')
      exact ⟨f, List.mem_cons_of_mem _ hf, hfv⟩
    | none =>
      have hx : e.seq_id = v := by
        simp only [lastSeq, h'] at h
        exact Option.some.inj h
      exact ⟨e, List.mem_cons_self _ _, hx⟩

theorem sorted_le_last (l : List LogEntry) (v : Nat)
    (hs : l.Pairwise SeqLt) (h : lastSeq l = some v) :
    ∀ e ∈ l, e.seq_id ≤ v := by
  induction l with
  | nil => simp
  | cons a t ih =>
    simp only [List.pairwise_cons] at hs
    intro e he
    cases h' : lastSeq t with
    | some x =>
      have hx : x = v := by
        simp only [lastSeq, h'] at h
        exact Option.some.inj h
      subst hx
      rcases List.mem_cons.mp he with rfl | he'
      · obtain ⟨f, hf, hfv⟩ := lastSeq_mem t x h'
        have hlt := hs.1 f hf
        simp only [SeqLt] at hlt
        omega
      · exact ih hs.2 h' e he'
    | none =>
      have hx : a.seq_id = v := by
        simp only [lastSeq, h'] at h
        exact Option.some.inj h
      have ht : t = [] := by
        cases t with
        | nil => rfl
        | cons b t' =>
          exfalso
          cases h'' : lastSeq t' <;> simp [lastSeq, h''] at h'
      subst ht
      rcases List.mem_cons.mp he with rfl | he'
      · omega
      · simp at he'

theorem deliverBatch_cons (e : LogEntry) (es : List LogEntry) (t : Sub) :
    deliverBatch (e :: es) t = deliverBatch es (deliverEntry e t) := rfl

/-- A halted subscriber receives nothing further from a batch. -/
theorem deliverBatch_halted (es : List LogEntry) (t : Sub)
    (h : t.halted = true) : deliverBatch es t = t := by
  induction es generalizing t with
  | nil => rfl
  | cons e es ih =>
    rw [deliverBatch_cons, show deliverEntry e t = t by simp [deliverEntry, h]]
    exact ih t h

/-- Delivery of a batch on which the callback never fails appends the
whole batch to the received list, advances the checkpoint to the last
delivered entry, and leaves everything else unchanged. -/
theorem deliverBatch_ok (es : List LogEntry) (t : Sub)
    (hh : t.halted = false) (hf : ∀ e ∈ es, t.failsOn e.seq_id = false) :
    deliverBatch es t =
      { t with
        received := t.received ++ es,
        checkpoint :=
          match lastSeq es with
          | some v => some v
          | none => t.checkpoint } := by
  induction es generalizing t with
  | nil => cases t; simp [deliverBatch, lastSeq]
  | cons e es ih =>
    have he : t.failsOn e.seq_id = false := hf e (List.mem_cons_self _ _)
    rw [deliverBatch_cons, show deliverEntry e t =
        { t with received := t.received ++ [e], checkpoint := some e.seq_id } by
      simp [deliverEntry, hh, he]]
    rw [ih { t with received := t.received ++ [e], checkpoint := some e.seq_id }
      hh (fun f hf' => hf f (List.mem_cons_of_mem _ hf'))]
    cases h' : lastSeq es <;> simp [lastSeq, h', List.append_assoc]

/-- Delivery of a batch whose callback first fails at entry E: every entry
up to and including E is passed to the callback, the checkpoint stays at
the predecessor of E (the last entry before E, or the prior checkpoint
when E is first), delivery halts, and the rest of the batch is not
invoked. -/
theorem deliverBatch_fail (a : List LogEntry) (E : LogEntry)
    (b : List LogEntry) (t : Sub) (hh : t.halted = false)
    (ha : ∀ e ∈ a, t.failsOn e.seq_id = false)
    (hE : t.failsOn E.seq_id = true) :
    deliverBatch (a ++ E :: b) t =
      { t with
        received := t.received ++ (a ++ [E]),
        checkpoint :=
          match lastSeq a with
          | some v => some v
          | none => t.checkpoint,
        halted := true } := by
  induction a generalizing t with
  | nil =>
    rw [List.nil_append, deliverBatch_cons, show deliverEntry E t =
        { t with received := t.received ++ [E], halted := true } by
      simp [deliverEntry, hh, hE]]
    rw [deliverBatch_halted b _ rfl]
    simp [lastSeq]
  | cons e a' ih =>
    have he : t.failsOn e.seq_id = false := ha e (List.mem_cons_self _ _)
    rw [List.cons_append, deliverBatch_cons, show deliverEntry e t =
        { t with received := t.received ++ [e], checkpoint := some e.seq_id } by
      simp [deliverEntry, hh, he]]
    rw [ih { t with received := t.received ++ [e], checkpoint := some e.seq_id }
      hh (fun f hf' => ha f (List.mem_cons_of_mem _ hf')) hE]
    cases h' : lastSeq a' <;> simp [lastSeq, h', List.append_assoc]

theorem deliverEntry_sid (e : LogEntry) (t : Sub) :
    (deliverEntry e t).sid = t.sid := by
  simp only [deliverEntry]
  split
  · rfl
  · split <;> rfl

theorem deliverEntry_failsOn (e : LogEntry) (t : Sub) :
    (deliverEntry e t).failsOn = t.failsOn := by
  simp only [deliverEntry]
  split
  · rfl
  · split <;> rfl

/-- Delivery never changes the handle id. -/
theorem deliverBatch_sid (es : List LogEntry) (t : Sub) :
    (deliverBatch es t).sid = t.sid := by
  induction es generalizing t with
  | nil => rfl
  | cons e es ih =>
    rw [deliverBatch_cons, ih, deliverEntry_sid]

/-- Delivery never changes the callback. -/
theorem deliverBatch_failsOn (es : List LogEntry) (t : Sub) :
    (deliverBatch es t).failsOn = t.failsOn := by
  induction es generalizing t with
  | nil => rfl
  | cons e es ih =>
    rw [deliverBatch_cons, ih, deliverEntry_failsOn]

theorem find?_append_right {α : Type} (p : α → Bool) (l1 l2 : List α)
    (h : ∀ a ∈ l1, p a = false) :
    List.find? p (l1 ++ l2) = List.find? p l2 := by
  induction l1 with
  | nil => rfl
  | cons a t ih =>
    simp only [List.cons_append, List.find?]
    rw [h a (List.mem_cons_self _ _)]
    exact ih (fun a' ha' => h a' (List.mem_cons_of_mem _ ha'))

theorem find?_filter_of {α : Type} (p q : α → Bool) (l : List α)
    (h : ∀ a, p a = true → q a = true) :
    List.find? p (l.filter q) = List.find? p l := by
  induction l with
  | nil => rfl
  | cons a t ih =>
    by_cases hq : q a = true
    · simp only [List.filter_cons, hq, if_pos, List.find?]
      cases hp : p a <;> simp [hp, List.find?, ih]
    · have hp : p a = false := by
        cases hp : p a
        · rfl
        · exact absurd (h a hp) hq
      have hq' : q a = false := by
        cases hqq : q a
        · rfl
        · exact absurd hqq hq
      simp [List.filter_cons, hq', List.find?, hp, ih]

theorem run_cons (cfg : Cfg) (op : Op) (ops : List Op) (s : SysState) :
    run cfg (op :: ops) s = run cfg ops (step cfg s op) := rfl

theorem Inv_append (s : SysState) (recs : List OperationRecord) (now : Nat)
    (h : Inv s) :
    (s.log.entries ++ mkEntries recs s.log.nextSeq now).Pairwise SeqLt ∧
    ∀ e ∈ s.log.entries ++ mkEntries recs s.log.nextSeq now,
      e.seq_id < s.log.nextSeq + recs.length := by
  constructor
  · rw [List.pairwise_append]
    refine ⟨h.1, mkEntries_sorted recs s.log.nextSeq now, fun a ha b hb => ?_⟩
    have h1 := h.2 a ha
    have h2 := (mkEntries_bounds recs s.log.nextSeq now b hb).1
    show a.seq_id < b.seq_id
    omega
  · intro e he
    rcases List.mem_append.mp he with he' | he'
    · have := h.2 e he'
      omega
    · exact (mkEntries_bounds recs s.log.nextSeq now e he').2

/-- Every serialized step of the topic preserves the queue invariant: no
operation, including a failed append or a callback failure, ever leaves
the sequence numbers non-monotonic or duplicated. -/
theorem Inv_step (cfg : Cfg) (s : SysState) (op : Op) (h : Inv s) :
    Inv (step cfg s op) := by
  cases op with
  | submit recs now ok =>
    simp only [step, submit_batch]
    cases hfe : firstErr cfg recs with
    | some e => exact h
    | none =>
      cases ok with
      | false => exact h
      | true =>
        simp only [LogState.append, if_true]
        exact Inv_append s recs now h
  | subscribe sid sa g =>
    simp only [step]
    split
    · exact h
    · exact h
  | unsubscribe sid => exact h

theorem Inv_run (cfg : Cfg) (ops : List Op) (s : SysState) (h : Inv s) :
    Inv (run cfg ops s) := by
  induction ops generalizing s with
  | nil => exact h
  | cons op ops ih => exact ih (step cfg s op) (Inv_step cfg s op h)

/-- Every serialized step only appends to the committed log. -/
theorem step_extends_log (cfg : Cfg) (s : SysState) (op : Op) :
    s.log.entries <+: (step cfg s op).log.entries := by
  cases op with
  | submit recs now ok =>
    simp only [step, submit_batch]
    cases hfe : firstErr cfg recs with
    | some e => exact List.prefix_refl _
    | none =>
      cases ok with
      | false => exact List.prefix_refl _
      | true =>
        simp only [LogState.append, if_true]
        exact List.prefix_append _ _
  | subscribe sid sa g =>
    simp only [step]
    split
    · exact List.prefix_refl _
    · exact List.prefix_refl _
  | unsubscribe sid => exact List.prefix_refl _

theorem run_extends_log (cfg : Cfg) (ops : List Op) (s : SysState) :
    s.log.entries <+: (run cfg ops s).log.entries := by
  induction ops generalizing s with
  | nil => exact List.prefix_refl _
  | cons op ops ih =>
    exact (step_extends_log cfg s op).trans (ih (step cfg s op))
theorem track_step (cfg : Cfg) (s : SysState) (op : Op) (sid : Nat)
    (hav : avoids sid op = true)
    (h : ∃ t, findSub sid s = some t ∧ t.failsOn = neverFails ∧
      t.halted = false ∧ t.received = s.log.entries) :
    ∃ t, findSub sid (step cfg s op) = some t ∧ t.failsOn = neverFails ∧
      t.halted = false ∧ t.received = (step cfg s op).log.entries := by
  obtain ⟨t, hfind, hfail, hhalt, hrec⟩ := h
  cases op with
  | submit recs now ok =>
    simp only [step, submit_batch]
    cases hfe : firstErr cfg recs with
    | some e => exact ⟨t, hfind, hfail, hhalt, hrec⟩
    | none =>
      cases ok with
      | false => exact ⟨t, hfind, hfail, hhalt, hrec⟩
      | true =>
        simp only [LogState.append, if_true]
        have hfne : ∀ e ∈ mkEntries recs s.log.nextSeq now,
            t.failsOn e.seq_id = false := by
          intro e he
          rw [hfail]
          rfl
        have hdb := deliverBatch_ok (mkEntries recs s.log.nextSeq now) t hhalt hfne
        refine ⟨deliverBatch (mkEntries recs s.log.nextSeq now) t, ?_, ?_, ?_, ?_⟩
        · show List.find? (fun u => u.sid == sid)
            (s.subs.map (deliverBatch (mkEntries recs s.log.nextSeq now))) = _
          rw [List.find?_map]
          have hcomp : ((fun u : Sub => u.sid == sid) ∘
              deliverBatch (mkEntries recs s.log.nextSeq now)) =
              (fun u : Sub => u.sid == sid) := by
            funext u
            simp [Function.comp, deliverBatch_sid]
          rw [hcomp]
          rw [show List.find? (fun u : Sub => u.sid == sid) s.subs = some t from hfind]
          rfl
        · rw [deliverBatch_failsOn]
          exact hfail
        · rw [hdb]
          exact hhalt
        · rw [hdb]
          show t.received ++ _ = s.log.entries ++ _
          rw [hrec]
  | subscribe sid2 sa g =>
    have hne : sid2 ≠ sid := by simpa [avoids] using hav
    simp only [step]
    split
    · exact ⟨t, hfind, hfail, hhalt, hrec⟩
    · refine ⟨t, ?_, hfail, hhalt, hrec⟩
      show List.find? (fun u => u.sid == sid)
        (s.subs ++ [mkSub sid2 sa g s.log.entries]) = some t
      rw [List.find?_append]
      rw [show List.find? (fun u : Sub => u.sid == sid) s.subs = some t from hfind]
      rfl
  | unsubscribe sid2 =>
    have hne : sid2 ≠ sid := by simpa [avoids] using hav
    refine ⟨t, ?_, hfail, hhalt, hrec⟩
    show List.find? (fun u => u.sid == sid)
      (s.subs.filter (fun u => u.sid != sid2)) = some t
    rw [find?_filter_of]
    · exact hfind
    · intro a hpa
      have ha : a.sid = sid := by simpa using hpa
      simp [ha]
      omega

theorem track_run (cfg : Cfg) (ops : List Op) (s : SysState) (sid : Nat)
    (hav : ∀ op ∈ ops, avoids sid op = true)
    (h : ∃ t, findSub sid s = some t ∧ t.failsOn = neverFails ∧
      t.halted = false ∧ t.received = s.log.entries) :
    ∃ t, findSub sid (run cfg ops s) = some t ∧ t.failsOn = neverFails ∧
      t.halted = false ∧ t.received = (run cfg ops s).log.entries := by
  induction ops generalizing s with
  | nil => exact h
  | cons op ops ih =>
    rw [run_cons]
    exact ih (step cfg s op) (fun o ho => hav o (List.mem_cons_of_mem _ ho))
      (track_step cfg s op sid (hav op (List.mem_cons_self _ _)) h)

theorem filter_none {α : Type} (p : α → Bool) (l : List α)
    (h : ∀ a ∈ l, p a = false) : l.filter p = [] := by
  induction l with
  | nil => rfl
  | cons a t ih =>
    rw [List.filter_cons, h a (List.mem_cons_self _ _)]
    exact ih (fun a' ha' => h a' (List.mem_cons_of_mem _ ha'))

theorem filter_all {α : Type} (p : α → Bool) (l : List α)
    (h : ∀ a ∈ l, p a = true) : l.filter p = l := by
  induction l with
  | nil => rfl
  | cons a t ih =>
    rw [List.filter_cons, h a (List.mem_cons_self _ _)]
    simp [ih (fun a' ha' => h a' (List.mem_cons_of_mem _ ha'))]

theorem lastSeq_eq_none (l : List LogEntry) (h : lastSeq l = none) : l = [] := by
  cases l with
  | nil => rfl
  | cons e t =>
    exfalso
    cases h' : lastSeq t <;> simp [lastSeq, h'] at h

theorem catchup_split (x a : List LogEntry) (E : LogEntry) (b : List LogEntry)
    (ck : Option Nat)
    (hx : ∀ e ∈ x, afterB ck e.seq_id = false)
    (ha : ∀ e ∈ a, afterB ck e.seq_id = false)
    (hE : afterB ck E.seq_id = true)
    (hb : ∀ e ∈ b, afterB ck e.seq_id = true) :
    catchup ck (x ++ (a ++ E :: b)) = E :: b := by
  unfold catchup
  rw [List.filter_append, List.filter_append, filter_none _ x hx,
    filter_none _ a ha, List.filter_cons, hE, filter_all _ b hb]
  rfl

theorem firstErr_append (cfg : Cfg) (pre : List OperationRecord)
    (r : OperationRecord) (rest : List OperationRecord)
    (hpre : ∀ q ∈ pre, validateRecord cfg q = none) :
    firstErr cfg (pre ++ r :: rest) =
      match validateRecord cfg r with
      | some e => some e
      | none => firstErr cfg rest := by
  induction pre with
  | nil => rfl
  | cons p pre' ih =>
    show (match validateRecord cfg p with
      | some e => some e
      | none => firstErr cfg (pre' ++ r :: rest)) = _
    rw [hpre p (List.mem_cons_self _ _)]
    exact ih (fun q hq => hpre q (List.mem_cons_of_mem _ hq))

/-! ## Claim theorems -/

/-- Claim C1: for every topic and subscription, each log entry is
delivered to the subscriber callback exactly once across the
catch-up-to-live transition, never skipped and never duplicated, even when
appends race with the subscribe call (modelled as arbitrary interleavings
of serialized operations after the atomic subscribe step).  A subscriber
starting from genesis on a topic with N existing entries receives exactly
those N entries, once, in order, and all of them strictly before any entry
appended after subscribe returned: its received list is exactly the
committed log, whose first N elements are the N pre-existing entries, with
strictly increasing and duplicate-free sequence ids. -/
theorem c1_exactly_once_delivery (cfg : Cfg) (s0 : SysState) (sid : Nat)
    (post : List Op) (hInv : Inv s0) (hfresh : freshSub sid s0 = true)
    (hav : ∀ op ∈ post, avoids sid op = true) :
    ∃ t, findSub sid
        (run cfg post (step cfg s0 (Op.subscribe sid none neverFails))) = some t ∧
      t.received =
        (run cfg post (step cfg s0 (Op.subscribe sid none neverFails))).log.entries ∧
      s0.log.entries <+: t.received ∧
      t.received.take s0.log.entries.length = s0.log.entries ∧
      t.received.Pairwise SeqLt ∧
      (t.received.map (·.seq_id)).Nodup := by
  have hguard : (s0.subs.any fun u => u.sid == sid) = false := by
    cases hany : s0.subs.any fun u => u.sid == sid
    · rfl
    · exfalso
      simp only [List.any_eq_true] at hany
      obtain ⟨u, hu, hbe⟩ := hany
      simp only [freshSub, List.all_eq_true] at hfresh
      have hne := hfresh u hu
      simp only [beq_iff_eq] at hbe
      simp only [bne_iff_ne, ne_eq] at hne
      exact hne hbe
  have hs1 : step cfg s0 (Op.subscribe sid none neverFails) =
      { s0 with subs := s0.subs ++ [mkSub sid none neverFails s0.log.entries] } := by
    simp [step, hguard]
  have hcat : catchup none s0.log.entries = s0.log.entries := by
    show List.filter _ _ = _
    rw [show (fun e : LogEntry => afterB none e.seq_id) = fun _ => true from rfl]
    exact List.filter_true _
  have hminit : mkSub sid none neverFails s0.log.entries =
      { sid := sid, failsOn := neverFails, received := s0.log.entries,
        checkpoint :=
          match lastSeq s0.log.entries with
          | some v => some v
          | none => none,
        halted := false } := by
    unfold mkSub
    rw [hcat, deliverBatch_ok _ _ rfl (fun e he => rfl)]
    simp
  have htrack0 : ∃ t, findSub sid (step cfg s0 (Op.subscribe sid none neverFails)) =
      some t ∧ t.failsOn = neverFails ∧ t.halted = false ∧
      t.received = (step cfg s0 (Op.subscribe sid none neverFails)).log.entries := by
    rw [hs1]
    refine ⟨mkSub sid none neverFails s0.log.entries, ?_, ?_, ?_, ?_⟩
    · show List.find? _ (s0.subs ++ [mkSub sid none neverFails s0.log.entries]) = _
      rw [find?_append_right]
      · have hp : ((mkSub sid none neverFails s0.log.entries).sid == sid) = true := by
          rw [hminit]
          exact beq_self_eq_true sid
        simp [List.find?, hp]
      · intro a ha
        simp only [freshSub, List.all_eq_true] at hfresh
        have hne := hfresh a ha
        simp only [bne_iff_ne, ne_eq] at hne
        simpa using hne
    · rw [hminit]
    · rw [hminit]
    · rw [hminit]
  have htrack := track_run cfg post _ sid hav htrack0
  obtain ⟨t, hfind, hfail, hhalt, hrec⟩ := htrack
  have hInv2 : Inv (run cfg post (step cfg s0 (Op.subscribe sid none neverFails))) :=
    Inv_run _ _ _ (Inv_step _ _ _ hInv)
  have hpre : s0.log.entries <+:
      (run cfg post (step cfg s0 (Op.subscribe sid none neverFails))).log.entries :=
    (step_extends_log cfg s0 (Op.subscribe sid none neverFails)).trans (run_extends_log cfg post _)
  refine ⟨t, hfind, hrec, ?_, ?_, ?_, ?_⟩
  · rw [hrec]
    exact hpre
  · rw [hrec]
    obtain ⟨u, hu⟩ := hpre
    rw [← hu, List.take_left]
  · rw [hrec]
    exact hInv2.1
  · rw [hrec]
    exact List.pairwise_map.mpr (hInv2.1.imp fun h => Nat.ne_of_lt h)

/-- Claim C2: for every topic, after any sequence of operations made of
successful appends with failures of any kind interleaved among them, the
queue invariant still holds and read_range from sequence id 0 returns
entries whose seq_ids are strictly increasing and contain no duplicates;
no operation, including a failed append, ever leaves the sequence numbers
non-monotonic or duplicated. -/
theorem c2_monotone_seq_ids (cfg : Cfg) (s : SysState) (ops : List Op)
    (lim : Nat) (hInv : Inv s) :
    Inv (run cfg ops s) ∧
    ((run cfg ops s).log.read_range 0 lim).Pairwise SeqLt ∧
    (((run cfg ops s).log.read_range 0 lim).map (·.seq_id)).Nodup := by
  have h2 := Inv_run cfg ops s hInv
  have hsub : ((run cfg ops s).log.read_range 0 lim).Sublist
      (run cfg ops s).log.entries := by
    show ((List.filter _ _).take _).Sublist _
    exact (List.take_sublist _ _).trans (List.filter_sublist _)
  have hpw := List.Pairwise.sublist hsub h2.1
  exact ⟨h2, hpw, List.pairwise_map.mpr (hpw.imp fun h => Nat.ne_of_lt h)⟩

/-- Claim C3: LogStore.append is all-or-nothing: on success every record
of the batch receives a contiguous, strictly increasing sequence number in
the order of the record list and the whole batch is committed in the
returned state, with no partial batch ever observable (the new entries are
exactly the suffix of the log and read_range returns them whole); on
StoreError nothing is appended and the returned value carries no new
state, so the queue state is exactly what it was before the call. -/
theorem c3_append_all_or_nothing (st : LogState) (recs : List OperationRecord)
    (now : Nat) (hsorted : st.entries.Pairwise SeqLt)
    (hbound : ∀ e ∈ st.entries, e.seq_id < st.nextSeq) :
    (∃ st' ne, st.append recs now true = Except.ok (st', ne) ∧
      ne.map (·.seq_id) = List.range' st.nextSeq recs.length ∧
      ne.map (·.record) = recs ∧
      ne.length = recs.length ∧
      st'.entries = st.entries ++ ne ∧
      st'.nextSeq = st.nextSeq + recs.length ∧
      st'.entries.Pairwise SeqLt ∧
      st'.read_range st.nextSeq recs.length = ne) ∧
    st.append recs now false = Except.error QErr.store := by
  constructor
  · refine ⟨_, mkEntries recs st.nextSeq now, rfl, mkEntries_seqs recs st.nextSeq now,
      mkEntries_records recs st.nextSeq now, mkEntries_length recs st.nextSeq now,
      rfl, rfl, ?_, ?_⟩
    · exact (Inv_append ⟨st, []⟩ recs now ⟨hsorted, hbound⟩).1
    · show ((st.entries ++ mkEntries recs st.nextSeq now).filter
        (fun e => decide (st.nextSeq ≤ e.seq_id))).take recs.length = _
      rw [List.filter_append]
      rw [filter_none _ st.entries (fun e he => by
        have := hbound e he
        simp
        omega)]
      rw [filter_all _ (mkEntries recs st.nextSeq now) (fun e he => by
        have := (mkEntries_bounds recs st.nextSeq now e he).1
        simp
        omega)]
      rw [List.nil_append, ← mkEntries_length recs st.nextSeq now, List.take_length]
  · rfl

/-- Claim C7: on every successful call, Producer.submit_batch appends the
records to the LogStore and, before returning, delivers each newly
appended entry, in sequence order, to every live subscriber of the topic,
so the returned state already reflects the whole synchronous fan-out: the
assigned seq ids are returned, the log is extended by exactly the batch
entries (whose records are the submitted records in order), every
subscriber is replaced by its delivered version, and every live
non-failing subscriber has received exactly the batch, appended in order. -/
theorem c7_synchronous_fanout (cfg : Cfg) (s : SysState)
    (recs : List OperationRecord) (now : Nat)
    (hval : firstErr cfg recs = none) :
    (submit_batch cfg recs now true s).2 =
      Except.ok ((mkEntries recs s.log.nextSeq now).map (·.seq_id)) ∧
    (submit_batch cfg recs now true s).1.log.entries =
      s.log.entries ++ mkEntries recs s.log.nextSeq now ∧
    (submit_batch cfg recs now true s).1.subs =
      s.subs.map (deliverBatch (mkEntries recs s.log.nextSeq now)) ∧
    (mkEntries recs s.log.nextSeq now).map (·.record) = recs ∧
    ∀ t ∈ s.subs, t.halted = false →
      (∀ e ∈ mkEntries recs s.log.nextSeq now, t.failsOn e.seq_id = false) →
      deliverBatch (mkEntries recs s.log.nextSeq now) t ∈
        (submit_batch cfg recs now true s).1.subs ∧
      (deliverBatch (mkEntries recs s.log.nextSeq now) t).received =
        t.received ++ mkEntries recs s.log.nextSeq now := by
  refine ⟨?_, ?_, ?_, mkEntries_records recs s.log.nextSeq now, ?_⟩
  · simp only [submit_batch, hval, LogState.append, if_true]
  · simp only [submit_batch, hval, LogState.append, if_true]
  · simp only [submit_batch, hval, LogState.append, if_true]
  · intro t ht hh hf
    constructor
    · simp only [submit_batch, hval, LogState.append, if_true]
      exact List.mem_map_of_mem _ ht
    · rw [deliverBatch_ok _ _ hh hf]

/-- Claim C5: segment apply is idempotent: for every segment state and
every OperationRecord, applying the same OperationRecord twice, as happens
on post-crash redelivery, yields a final segment state identical to
applying it exactly once. -/
theorem c5_apply_idempotent (s : SegState) (r : OperationRecord) :
    applySeg (applySeg s r) r = applySeg s r := by
  cases hop : r.operation with
  | add =>
    simp only [applySeg, hop]
    cases h : s r.id with
    | some v => simp [h]
    | none => simp [h, setSeg_same]
  | upsert =>
    simp only [applySeg, hop]
    exact setSeg_idem s r.id (recOf r)
  | update =>
    simp only [applySeg, hop]
    cases h : s r.id with
    | none => simp [h]
    | some old =>
      simp only [h]
      rw [setSeg_same]
      cases hre : r.embedding <;>
        simp [hre, applyMeta_idem, setSeg_idem]
  | delete =>
    simp only [applySeg, hop]
    funext k'
    by_cases hk : k' = r.id <;> simp [eraseSeg, hk]

/-- Claim C4: if a caught-up subscriber callback fails while applying
log entry E of a submitted batch, that subscriber checkpoint remains at
the predecessor of E and is never advanced to or past E, the producer
append still succeeds, and every other subscriber is updated independently
from its own prior state only; restarting the subscription from the
persisted checkpoint then redelivers exactly E and every later entry and
never any entry earlier than E. -/
theorem c4_callback_failure_checkpoint (cfg : Cfg) (s : SysState)
    (recs : List OperationRecord) (now : Nat) (t : Sub)
    (a : List LogEntry) (E : LogEntry) (b : List LogEntry)
    (hInv : Inv s) (hval : firstErr cfg recs = none)
    (hsplit : mkEntries recs s.log.nextSeq now = a ++ E :: b)
    (ha : ∀ e ∈ a, t.failsOn e.seq_id = false)
    (hE : t.failsOn E.seq_id = true) (hh : t.halted = false)
    (hcaught : t.checkpoint = lastSeq s.log.entries) :
    (submit_batch cfg recs now true s).2 =
      Except.ok ((mkEntries recs s.log.nextSeq now).map (·.seq_id)) ∧
    (submit_batch cfg recs now true s).1.subs =
      s.subs.map (deliverBatch (mkEntries recs s.log.nextSeq now)) ∧
    deliverBatch (mkEntries recs s.log.nextSeq now) t =
      { t with
        received := t.received ++ (a ++ [E]),
        checkpoint :=
          match lastSeq a with
          | some v => some v
          | none => t.checkpoint,
        halted := true } ∧
    (∀ c, (deliverBatch (mkEntries recs s.log.nextSeq now) t).checkpoint = some c →
      c < E.seq_id) ∧
    (mkSub t.sid (deliverBatch (mkEntries recs s.log.nextSeq now) t).checkpoint
      neverFails (submit_batch cfg recs now true s).1.log.entries).received = E :: b := by
  have F1 : (a ++ E :: b).Pairwise SeqLt :=
    hsplit ▸ mkEntries_sorted recs s.log.nextSeq now
  have F2 : ∀ e ∈ a ++ E :: b, s.log.nextSeq ≤ e.seq_id := by
    rw [← hsplit]
    exact fun e he => (mkEntries_bounds _ _ _ e he).1
  have hpa := List.pairwise_append.mp F1
  have haE : ∀ e ∈ a, e.seq_id < E.seq_id :=
    fun e he => hpa.2.2 e he E (List.mem_cons_self _ _)
  have hbE : ∀ e ∈ b, E.seq_id < e.seq_id := (List.pairwise_cons.mp hpa.2.1).1
  have hEge : s.log.nextSeq ≤ E.seq_id :=
    F2 E (List.mem_append.mpr (Or.inr (List.mem_cons_self _ _)))
  have hOld : ∀ e ∈ s.log.entries, e.seq_id < s.log.nextSeq := hInv.2
  have hdf : deliverBatch (mkEntries recs s.log.nextSeq now) t =
      { t with
        received := t.received ++ (a ++ [E]),
        checkpoint :=
          match lastSeq a with
          | some v => some v
          | none => t.checkpoint,
        halted := true } := by
    rw [hsplit]
    exact deliverBatch_fail a E b t hh ha hE
  have hckE : ∀ c, (deliverBatch (mkEntries recs s.log.nextSeq now) t).checkpoint =
      some c → c < E.seq_id := by
    intro c hc
    rw [hdf] at hc
    cases hla : lastSeq a with
    | some v =>
      rw [hla] at hc
      obtain ⟨e, he, hev⟩ := lastSeq_mem a v hla
      have := haE e he
      have : v = c := Option.some.inj hc
      omega
    | none =>
      rw [hla] at hc
      rw [hcaught] at hc
      obtain ⟨e, he, hev⟩ := lastSeq_mem s.log.entries c hc
      have := hOld e he
      omega
  refine ⟨?_, ?_, hdf, hckE, ?_⟩
  · simp only [submit_batch, hval, LogState.append, if_true]
  · simp only [submit_batch, hval, LogState.append, if_true]
  · have hs' : (submit_batch cfg recs now true s).1.log.entries =
        s.log.entries ++ mkEntries recs s.log.nextSeq now := by
      simp only [submit_batch, hval, LogState.append, if_true]
    have hms : ∀ (ck : Option Nat) (l : List LogEntry),
        (mkSub t.sid ck neverFails l).received = catchup ck l := by
      intro ck l
      unfold mkSub
      rw [deliverBatch_ok _ _ rfl (fun e he => rfl)]
      rfl
    rw [hms, hs', hdf, hsplit]
    cases hla : lastSeq a with
    | some v =>
      obtain ⟨f, hf, hfv⟩ := lastSeq_mem a v hla
      have hvlt : v < E.seq_id := by
        have := haE f hf
        omega
      have hvge : s.log.nextSeq ≤ v := by
        have := F2 f (List.mem_append.mpr (Or.inl hf))
        omega
      refine catchup_split _ _ _ _ _ ?_ ?_ ?_ ?_
      · intro e he
        have := hOld e he
        simp only [afterB, decide_eq_false_iff_not]
        omega
      · intro e he
        have hle := sorted_le_last a v hpa.1 hla e he
        simp only [afterB, decide_eq_false_iff_not]
        omega
      · simp only [afterB, decide_eq_true_eq]
        omega
      · intro e he
        have := hbE e he
        simp only [afterB, decide_eq_true_eq]
        omega
    | none =>
      have ha0 : a = [] := lastSeq_eq_none a hla
      subst ha0
      rw [hcaught]
      cases hle : lastSeq s.log.entries with
      | none =>
        have he0 : s.log.entries = [] := lastSeq_eq_none _ hle
        rw [he0]
        refine catchup_split _ _ _ _ _ ?_ ?_ ?_ ?_
        · intro e he
          simp at he
        · intro e he
          simp at he
        · rfl
        · intro e he
          rfl
      | some w =>
        obtain ⟨f, hf, hfw⟩ := lastSeq_mem _ w hle
        have hwlt : w < s.log.nextSeq := by
          have := hOld f hf
          omega
        refine catchup_split _ _ _ _ _ ?_ ?_ ?_ ?_
        · intro e he
          have := sorted_le_last _ w hInv.1 hle e he
          simp only [afterB, decide_eq_false_iff_not]
          omega
        · intro e he
          simp at he
        · simp only [afterB, decide_eq_true_eq]
          omega
        · intro e he
          have := hbE e he
          simp only [afterB, decide_eq_true_eq]
          omega

/-- Claim C6: Producer.submit_batch rejects any batch whose first invalid
record has an empty id, or is an ADD/UPSERT record whose embedding
dimension differs from the collection configured dimension (with
DimensionMismatchError), or carries an embedding with a non-finite value
(with InvalidVectorError); in every such case, and whenever any record of
the batch is invalid, the rejection happens synchronously before append
(regardless of the backing medium), the queue state is returned unchanged
so nothing is persisted, and no SeqId is assigned. -/
theorem c6_submit_batch_validation (cfg : Cfg) (s : SysState)
    (recs : List OperationRecord) (now : Nat) (ok : Bool)
    (pre : List OperationRecord) (r : OperationRecord)
    (rest : List OperationRecord)
    (hdecomp : recs = pre ++ r :: rest)
    (hpre : ∀ q ∈ pre, validateRecord cfg q = none) :
    (r.id = "" →
      submit_batch cfg recs now ok s =
        (s, Except.error (QErr.validation ValErr.emptyId))) ∧
    (r.id ≠ "" → (r.operation = Operation.add ∨ r.operation = Operation.upsert) →
      ∀ v, r.embedding = some v → v.length ≠ cfg.dim →
      submit_batch cfg recs now ok s =
        (s, Except.error (QErr.validation ValErr.dimensionMismatch))) ∧
    (r.id ≠ "" →
      ¬((r.operation = Operation.add ∨ r.operation = Operation.upsert) ∧
        ∀ v, r.embedding = some v → v.length ≠ cfg.dim) →
      ∀ v, r.embedding = some v → (∃ x ∈ v, x.isFinite = false) →
      submit_batch cfg recs now ok s =
        (s, Except.error (QErr.validation ValErr.invalidVector))) ∧
    (validateRecord cfg r ≠ none →
      ∃ e, submit_batch cfg recs now ok s =
        (s, Except.error (QErr.validation e))) := by
  have hfe : ∀ e, validateRecord cfg r = some e →
      submit_batch cfg recs now ok s = (s, Except.error (QErr.validation e)) := by
    intro e hv
    have h1 : firstErr cfg recs = some e := by
      rw [hdecomp, firstErr_append cfg pre r rest hpre, hv]
    simp only [submit_batch, h1]
  refine ⟨?_, ?_, ?_, ?_⟩
  · intro hid
    refine hfe _ ?_
    simp only [validateRecord, if_pos hid]
  · intro hid hop v hemb hlen
    refine hfe _ ?_
    simp only [validateRecord, if_neg hid, hemb]
    rw [if_pos ⟨hop, hlen⟩]
  · intro hid hdim v hemb hex
    refine hfe _ ?_
    simp only [validateRecord, if_neg hid, hemb]
    rw [if_neg (fun hcon => hdim ⟨hcon.1, fun v' hv' => by
      rw [hemb] at hv'
      cases hv'
      exact hcon.2⟩)]
    rw [if_pos hex]
  · intro hv
    cases h : validateRecord cfg r with
    | none => exact absurd h hv
    | some e => exact ⟨e, hfe e h⟩

theorem takeExact_eq {α : Type} (l : List α) (n : Nat) (hn : n ≤ l.length) :
    takeExact l n = some (l.take n) := by
  induction n generalizing l with
  | zero => cases l <;> rfl
  | succ n ih =>
    cases l with
    | nil => simp at hn
    | cons x xs =>
      show (match takeExact xs n with
        | none => none
        | some ys => some (x :: ys)) = _
      rw [ih xs (by simpa using hn)]
      rfl

/-- Claim C8: for every collection id and segment type,
SegmentManager.get_segment returns the cached subscribed instance when one
exists; otherwise it constructs and caches one whose subscription starts
at checkpoint + 1 when a persisted checkpoint exists (its catch-up
contains precisely the entries with sequence id at least checkpoint + 1)
and at genesis when none does (its catch-up is the whole log); startup
recovery builds a handle by the same rule for every known segment. -/
theorem c8_get_segment_resume (m : SegMgr) (k : SegKey)
    (known : List SegKey) (l : List LogEntry) :
    (∀ h, alookup m.cache k = some h → m.get_segment k = (m, h)) ∧
    (alookup m.cache k = none →
      (m.get_segment k).2 = SegHandle.mk k (alookup m.checkpoints k) ∧
      alookup (m.get_segment k).1.cache k = some (m.get_segment k).2 ∧
      (∀ c, alookup m.checkpoints k = some c →
        ∀ e ∈ l, (e ∈ catchup (m.get_segment k).2.startAfter l ↔
          c + 1 ≤ e.seq_id)) ∧
      (alookup m.checkpoints k = none →
        catchup (m.get_segment k).2.startAfter l = l)) ∧
    recoverAll m known =
      known.map (fun k2 => SegHandle.mk k2 (alookup m.checkpoints k2)) ∧
    ∀ k2 ∈ known, SegHandle.mk k2 (alookup m.checkpoints k2) ∈ recoverAll m known := by
  refine ⟨?_, ?_, rfl, ?_⟩
  · intro h hh
    simp only [SegMgr.get_segment, hh]
  · intro hmiss
    have hf : m.cache.find? (fun q => q.1 == k) = none := by
      cases hff : m.cache.find? (fun q => q.1 == k) with
      | none => rfl
      | some x =>
        exfalso
        unfold alookup at hmiss
        rw [hff] at hmiss
        simp at hmiss
    refine ⟨?_, ?_, ?_, ?_⟩
    · simp only [SegMgr.get_segment, hmiss]
    · simp only [SegMgr.get_segment, hmiss]
      unfold alookup
      rw [find?_append_right]
      · simp [List.find?]
      · intro q hq
        cases hb : (q.1 == k)
        · rfl
        · exfalso
          have := List.find?_eq_none.mp hf q hq
          exact this hb
    · intro c hc e he
      simp only [SegMgr.get_segment, hmiss, hc]
      simp [catchup, List.mem_filter, he, afterB]
      omega
    · intro hnone
      simp only [SegMgr.get_segment, hmiss, hnone]
      show List.filter _ _ = _
      rw [show (fun e : LogEntry => afterB none e.seq_id) = fun _ => true from rfl]
      exact List.filter_true _
  · intro k2 hk2
    exact List.mem_map_of_mem _ hk2

/-- Claim C9: for every producer, iterator of OperationRecords and n such
that the iterator yields at least n records, produce_n_single and
produce_n_batch each return exactly the first n records drawn from the
iterator, unchanged and in draw order, paired with one SeqId per record;
for any producer whose submissions append to an abstract submission log
and answer one SeqId per batch record, the two strategies leave the
identical submission log, differing only in submitting one record per
submit_embedding call versus the whole batch in one submit_embeddings
call. -/
theorem c9_produce_single_batch_agree {σ : Type} (p : ProducerM σ)
    (logOf : σ → List OperationRecord) (s0 : σ)
    (embeddings : List OperationRecord) (n : Nat)
    (hn : n ≤ embeddings.length)
    (hlog1 : ∀ s e, logOf (p.submit_embedding s e).1 = logOf s ++ [e])
    (hlog2 : ∀ s rs, logOf (p.submit_embeddings s rs).1 = logOf s ++ rs)
    (hlen : ∀ s rs, (p.submit_embeddings s rs).2.length = rs.length) :
    (∃ s1 sids1,
      produce_n_single p s0 embeddings n = some (s1, embeddings.take n, sids1) ∧
      sids1.length = n ∧ logOf s1 = logOf s0 ++ embeddings.take n) ∧
    (∃ s2 sids2,
      produce_n_batch p s0 embeddings n = some (s2, embeddings.take n, sids2) ∧
      sids2.length = n ∧ logOf s2 = logOf s0 ++ embeddings.take n) := by
  constructor
  · clear hlog2 hlen
    induction n generalizing embeddings s0 with
    | zero =>
      cases embeddings <;>
        exact ⟨s0, [], rfl, rfl, (List.append_nil _).symm⟩
    | succ n ih =>
      cases embeddings with
      | nil => simp at hn
      | cons e rest =>
        cases hps : p.submit_embedding s0 e with
        | mk s1 sid =>
          obtain ⟨s1', sids1, heq, hlen1, hlog⟩ :=
            ih s1 rest (by simpa using hn)
          refine ⟨s1', sid :: sids1, ?_, ?_, ?_⟩
          · show (match p.submit_embedding s0 e with
              | (s1, sid) =>
                match produce_n_single p s1 rest n with
                | none => none
                | some (s2, recs, sids) => some (s2, e :: recs, sid :: sids)) = _
            rw [hps]
            show (match produce_n_single p s1 rest n with
              | none => none
              | some (s2, recs, sids) => some (s2, e :: recs, sid :: sids)) = _
            rw [heq, List.take_succ_cons]
          · simp [hlen1]
          · rw [hlog, show s1 = (p.submit_embedding s0 e).1 by rw [hps], hlog1]
            simp
  · obtain ⟨batch, hbatch⟩ : ∃ batch, takeExact embeddings n = some batch :=
      ⟨_, takeExact_eq embeddings n hn⟩
    have hbt : batch = embeddings.take n := by
      rw [takeExact_eq embeddings n hn] at hbatch
      exact (Option.some.inj hbatch).symm
    cases hpb : p.submit_embeddings s0 batch with
    | mk s2 sids =>
      have h1 : produce_n_batch p s0 embeddings n = some (s2, batch, sids) := by
        unfold produce_n_batch
        rw [hbatch]
        show (match p.submit_embeddings s0 batch with
          | (s1, sids) => some (s1, batch, sids)) = _
        rw [hpb]
      have h2 : sids.length = batch.length := by
        have h3 := hlen s0 batch
        rw [hpb] at h3
        exact h3
      have h4 : logOf s2 = logOf s0 ++ batch := by
        have h5 := hlog2 s0 batch
        rw [hpb] at h5
        exact h5
      refine ⟨s2, sids, ?_, ?_, ?_⟩
      · rw [h1, hbt]
      · rw [h2, hbt, List.length_take]
        omega
      · rw [h4, hbt]

/-- Claim C10: for every collection, calling Collection.update with a
non-empty list of ids but with embeddings, documents and metadatas all
absent raises a ValueError whose message contains the text required by
test_update_query, and applies no update to the collection. -/
theorem c10_update_requires_data (c : CollectionState) (ids : List String)
    (hids : ids ≠ []) :
    Collection.update c ids none none none = (c, some updErrMsg) ∧
    ∃ pre post : String,
      updErrMsg = pre ++ "You must provide either data or metadatas" ++ post := by
  refine ⟨rfl, "", "", ?_⟩
  simp [updErrMsg]

/-! ## Witnesses at concrete inputs -/

theorem c1_exactly_once_delivery_witness :
    Inv exSys ∧ freshSub 7 exSys = true ∧
    (∀ op ∈ exPost, avoids 7 op = true) ∧
    ∃ t, findSub 7
        (run exCfg exPost (step exCfg exSys (Op.subscribe 7 none neverFails))) = some t ∧
      t.received =
        (run exCfg exPost (step exCfg exSys (Op.subscribe 7 none neverFails))).log.entries ∧
      exSys.log.entries <+: t.received ∧
      t.received.take exSys.log.entries.length = exSys.log.entries ∧
      t.received.Pairwise SeqLt ∧
      (t.received.map (·.seq_id)).Nodup :=
  ⟨by decide, by decide, by decide,
    c1_exactly_once_delivery exCfg exSys 7 exPost (by decide) (by decide) (by decide)⟩

theorem c2_monotone_seq_ids_witness :
    Inv exSys ∧
    (Inv (run exCfg exPost exSys) ∧
     ((run exCfg exPost exSys).log.read_range 0 5).Pairwise SeqLt ∧
     (((run exCfg exPost exSys).log.read_range 0 5).map (·.seq_id)).Nodup) :=
  ⟨by decide, c2_monotone_seq_ids exCfg exSys exPost 5 (by decide)⟩

theorem c3_append_all_or_nothing_witness :
    exLog.entries.Pairwise SeqLt ∧
    (∀ e ∈ exLog.entries, e.seq_id < exLog.nextSeq) ∧
    ((∃ st' ne, exLog.append [exRec2, exRec3] 5 true = Except.ok (st', ne) ∧
      ne.map (·.seq_id) = List.range' exLog.nextSeq [exRec2, exRec3].length ∧
      ne.map (·.record) = [exRec2, exRec3] ∧
      ne.length = [exRec2, exRec3].length ∧
      st'.entries = exLog.entries ++ ne ∧
      st'.nextSeq = exLog.nextSeq + [exRec2, exRec3].length ∧
      st'.entries.Pairwise SeqLt ∧
      st'.read_range exLog.nextSeq [exRec2, exRec3].length = ne) ∧
    exLog.append [exRec2, exRec3] 5 false = Except.error QErr.store) :=
  ⟨by decide, by decide,
    c3_append_all_or_nothing exLog [exRec2, exRec3] 5 (by decide) (by decide)⟩

theorem c4_callback_failure_checkpoint_witness :
    Inv exSysD ∧
    firstErr exCfg [exRec2, exRec3, exRec4] = none ∧
    mkEntries [exRec2, exRec3, exRec4] exSysD.log.nextSeq 5 = exA ++ exE :: exB ∧
    (∀ e ∈ exA, exSub.failsOn e.seq_id = false) ∧
    exSub.failsOn exE.seq_id = true ∧
    exSub.halted = false ∧
    exSub.checkpoint = lastSeq exSysD.log.entries ∧
    ((submit_batch exCfg [exRec2, exRec3, exRec4] 5 true exSysD).2 =
      Except.ok ((mkEntries [exRec2, exRec3, exRec4] exSysD.log.nextSeq 5).map (·.seq_id)) ∧
    (submit_batch exCfg [exRec2, exRec3, exRec4] 5 true exSysD).1.subs =
      exSysD.subs.map (deliverBatch (mkEntries [exRec2, exRec3, exRec4] exSysD.log.nextSeq 5)) ∧
    deliverBatch (mkEntries [exRec2, exRec3, exRec4] exSysD.log.nextSeq 5) exSub =
      { exSub with
        received := exSub.received ++ (exA ++ [exE]),
        checkpoint :=
          match lastSeq exA with
          | some v => some v
          | none => exSub.checkpoint,
        halted := true } ∧
    (∀ c, (deliverBatch (mkEntries [exRec2, exRec3, exRec4] exSysD.log.nextSeq 5)
        exSub).checkpoint = some c → c < exE.seq_id) ∧
    (mkSub exSub.sid
      (deliverBatch (mkEntries [exRec2, exRec3, exRec4] exSysD.log.nextSeq 5)
        exSub).checkpoint
      neverFails
      (submit_batch exCfg [exRec2, exRec3, exRec4] 5 true exSysD).1.log.entries).received =
      exE :: exB) :=
  ⟨by decide, by decide, by decide, by decide, by decide, by decide, by decide,
    c4_callback_failure_checkpoint exCfg exSysD [exRec2, exRec3, exRec4] 5
      exSub exA exE exB (by decide) (by decide) (by decide) (by decide)
      (by decide) (by decide) (by decide)⟩

theorem c6_submit_batch_validation_witness :
    [exRecBadDim] = [] ++ exRecBadDim :: [] ∧
    (∀ q ∈ ([] : List OperationRecord), validateRecord exCfg q = none) ∧
    ((exRecBadDim.id = "" →
      submit_batch exCfg [exRecBadDim] 5 true exSys =
        (exSys, Except.error (QErr.validation ValErr.emptyId))) ∧
    (exRecBadDim.id ≠ "" →
      (exRecBadDim.operation = Operation.add ∨
        exRecBadDim.operation = Operation.upsert) →
      ∀ v, exRecBadDim.embedding = some v → v.length ≠ exCfg.dim →
      submit_batch exCfg [exRecBadDim] 5 true exSys =
        (exSys, Except.error (QErr.validation ValErr.dimensionMismatch))) ∧
    (exRecBadDim.id ≠ "" →
      ¬((exRecBadDim.operation = Operation.add ∨
        exRecBadDim.operation = Operation.upsert) ∧
        ∀ v, exRecBadDim.embedding = some v → v.length ≠ exCfg.dim) →
      ∀ v, exRecBadDim.embedding = some v → (∃ x ∈ v, x.isFinite = false) →
      submit_batch exCfg [exRecBadDim] 5 true exSys =
        (exSys, Except.error (QErr.validation ValErr.invalidVector))) ∧
    (validateRecord exCfg exRecBadDim ≠ none →
      ∃ e, submit_batch exCfg [exRecBadDim] 5 true exSys =
        (exSys, Except.error (QErr.validation e)))) :=
  ⟨by decide, by decide,
    c6_submit_batch_validation exCfg exSys [exRecBadDim] 5 true []
      exRecBadDim [] (by decide) (by decide)⟩

theorem c7_synchronous_fanout_witness :
    firstErr exCfg [exRec2] = none ∧
    ((submit_batch exCfg [exRec2] 5 true exSys).2 =
      Except.ok ((mkEntries [exRec2] exSys.log.nextSeq 5).map (·.seq_id)) ∧
    (submit_batch exCfg [exRec2] 5 true exSys).1.log.entries =
      exSys.log.entries ++ mkEntries [exRec2] exSys.log.nextSeq 5 ∧
    (submit_batch exCfg [exRec2] 5 true exSys).1.subs =
      exSys.subs.map (deliverBatch (mkEntries [exRec2] exSys.log.nextSeq 5)) ∧
    (mkEntries [exRec2] exSys.log.nextSeq 5).map (·.record) = [exRec2] ∧
    ∀ t ∈ exSys.subs, t.halted = false →
      (∀ e ∈ mkEntries [exRec2] exSys.log.nextSeq 5, t.failsOn e.seq_id = false) →
      deliverBatch (mkEntries [exRec2] exSys.log.nextSeq 5) t ∈
        (submit_batch exCfg [exRec2] 5 true exSys).1.subs ∧
      (deliverBatch (mkEntries [exRec2] exSys.log.nextSeq 5) t).received =
        t.received ++ mkEntries [exRec2] exSys.log.nextSeq 5) :=
  ⟨by decide, c7_synchronous_fanout exCfg exSys [exRec2] 5 (by decide)⟩

theorem c9_produce_single_batch_agree_witness :
    1 ≤ [exRec1, exRec2].length ∧
    ((∃ s1 sids1,
      produce_n_single exProd [] [exRec1, exRec2] 1 =
        some (s1, [exRec1, exRec2].take 1, sids1) ∧
      sids1.length = 1 ∧ id s1 = id [] ++ [exRec1, exRec2].take 1) ∧
    (∃ s2 sids2,
      produce_n_batch exProd [] [exRec1, exRec2] 1 =
        some (s2, [exRec1, exRec2].take 1, sids2) ∧
      sids2.length = 1 ∧ id s2 = id [] ++ [exRec1, exRec2].take 1)) :=
  ⟨by decide,
    c9_produce_single_batch_agree exProd id [] [exRec1, exRec2] 1 (by decide)
      (fun s e => rfl) (fun s rs => rfl) (fun s rs => by simp [exProd])⟩

theorem c10_update_requires_data_witness :
    (["1", "2"] : List String) ≠ [] ∧
    (Collection.update ([] : CollectionState) ["1", "2"] none none none =
      ([], some updErrMsg) ∧
    ∃ pre post : String,
      updErrMsg = pre ++ "You must provide either data or metadatas" ++ post) :=
  ⟨by decide, c10_update_requires_data [] ["1", "2"] (by decide)⟩

end Chroma
